import Mathlib

set_option autoImplicit false

namespace SchoolMCP

/-! Shallow embedding of the protocol core of the schoolsample repository:
the client-side Plan Executor and WebSocket connector (`app/mcp_client.py`)
and the server-side Tool Registry and Execution Dispatcher
(`app/generic_mcp_server_di.py`). Python dicts are modelled as ordered
association lists with overwrite-on-insert, matching CPython semantics. -/

/-- A domain record as handled by the Plan Executor: a Python dict that may
or may not carry an `id` field (`key = none` models a record without `id`),
with a `payload` distinguishing otherwise-equal records. -/
structure Rec where
  key : Option Nat
  payload : Nat
deriving DecidableEq

/-- Insertion into a Python ordered dict modelled as an association list:
if the key is present the value is overwritten in place, otherwise the pair
is appended at the end. -/
def insA {α β : Type} [BEq α] (m : List (α × β)) (k : α) (v : β) : List (α × β) :=
  if m.any (fun p => p.1 == k) then m.map (fun p => if p.1 == k then (k, v) else p)
  else m ++ [(k, v)]

/-- Dict lookup: first entry carrying the key (keys are unique in dicts built
with `insA`). -/
def lookA {α β : Type} [BEq α] (m : List (α × β)) (k : α) : Option β :=
  (m.find? (fun p => p.1 == k)).map (fun p => p.2)

/-- Dict key-membership test (`k in d` in Python). -/
def hasA {α β : Type} [BEq α] (m : List (α × β)) (k : α) : Bool :=
  m.any (fun p => p.1 == k)

/-- `PlanExecutor._index_by_id`: the comprehension
`{item["id"]: item for item in lst if isinstance(item, dict) and "id" in item}` —
records without an `id` field are skipped; a later duplicate key overwrites
an earlier one, as in a Python dict comprehension. -/
def indexById (lst : List Rec) : List (Nat × Rec) :=
  lst.foldl (fun m item =>
    match item.key with
    | some k => insA m k item
    | none => m) []

/-- `PlanExecutor.merge_intersect`: with fewer than two sets return
`results[-1] if results else []`; otherwise keep the entries of the first
index map whose key occurs in every other index map, and return their
values. -/
def merge_intersect : List (List Rec) → List Rec
  | [] => []
  | [r] => r
  | r0 :: r1 :: rs =>
    let m0 := indexById r0
    let maps := (r1 :: rs).map indexById
    (m0.filter (fun p => maps.all (fun m => hasA m p.1))).map (fun p => p.2)

/-- `PlanExecutor.merge_union`: fold every record carrying an `id` of every
set into one dict (later keys overwrite earlier ones) and return its values. -/
def merge_union (results : List (List Rec)) : List Rec :=
  (results.foldl (fun m r =>
    r.foldl (fun acc item =>
      match item.key with
      | some k => insA acc k item
      | none => acc) m) []).map (fun p => p.2)

/-- `PlanExecutor.merge_difference`: values of the first index map whose key
is absent from the second index map, in first-map order. -/
def merge_difference (a b : List Rec) : List Rec :=
  let amap := indexById a
  let bmap := indexById b
  (amap.filter (fun p => !(hasA bmap p.1))).map (fun p => p.2)

/-- The latest occurrence in `l` of a record whose `id` equals `k` — the
record a Python dict comprehension keyed by `id` retains for key `k`. -/
def lastWithKey (l : List Rec) (k : Nat) : Option Rec :=
  (l.filter (fun r => r.key == some k)).getLast?

/-- The most recent logical value (`context_last` in `PlanExecutor.execute`):
Python `None`, a list of records, or an integer produced by `count`. -/
inductive CtxVal where
  | none
  | list (l : List Rec)
  | int (n : Nat)
deriving DecidableEq

/-- A tool call's reply: `PlanExecutor.execute` accepts only list replies and
raises `ValueError` on anything else. -/
inductive ToolRes where
  | lst (l : List Rec)
  | nonList
deriving DecidableEq

/-- One plan step as consumed by `PlanExecutor.execute`: a tool call (carrying
the reply the MCP server returns for it, which is external input to the
executor) or a merge directive with its operator string. -/
inductive Step where
  | toolCall (res : ToolRes)
  | merge (op : String)
deriving DecidableEq

/-- The operators `("intersect", "union", "difference")` that need at least two
accumulated sets. -/
def isBinaryOp (op : String) : Bool :=
  op == "intersect" || op == "union" || op == "difference"

/-- The inner `_apply_merge_op` closure of `PlanExecutor.execute`: applies one
deferred operator to `(tool_results, context_last)`; returns whether it
applied together with the updated state, and raises (`Except.error`) on an
operator it does not know. -/
def applyMergeOp (op : String) (sets : List (List Rec)) (last : CtxVal) :
    Except String (Bool × List (List Rec) × CtxVal) :=
  if op == "intersect" then
    let merged := merge_intersect sets
    .ok (true, [merged], .list merged)
  else if op == "union" then
    let merged := merge_union sets
    .ok (true, [merged], .list merged)
  else if op == "difference" then
    match sets with
    | a :: b :: _ =>
      let merged := merge_difference a b
      .ok (true, [merged], .list merged)
    | _ => .ok (false, sets, last)
  else
    .error ("Unknown deferred merge op " ++ op)

/-- The `while pending_merges and applied_any` loop run after each tool call:
pop and apply the head operator while it is binary and at least two sets are
available; a binary head with fewer than two sets stops the loop unpopped; a
non-binary head is popped without being applied and stops the loop. -/
def drainToolLoop : List String → List (List Rec) → CtxVal →
    Except String (List String × List (List Rec) × CtxVal)
  | [], sets, last => .ok ([], sets, last)
  | op :: rest, sets, last =>
    if isBinaryOp op then
      if 2 ≤ sets.length then
        match applyMergeOp op sets last with
        | .error e => .error e
        | .ok (_, sets1, last1) => drainToolLoop rest sets1 last1
      else .ok (op :: rest, sets, last)
    else .ok (rest, sets, last)

/-- The `while pending_merges` drain used both by a `count` step and at plan
end: stop (without popping) on a binary head with fewer than two sets,
otherwise pop the head and hand it to `_apply_merge_op`. -/
def drainCountLoop : List String → List (List Rec) → CtxVal →
    Except String (List String × List (List Rec) × CtxVal)
  | [], sets, last => .ok ([], sets, last)
  | op :: rest, sets, last =>
    if isBinaryOp op && sets.length < 2 then .ok (op :: rest, sets, last)
    else
      match applyMergeOp op sets last with
      | .error e => .error e
      | .ok (_, sets1, last1) => drainCountLoop rest sets1 last1

/-- The main step loop of `PlanExecutor.execute` over
`(tool_results, context_last, pending_merges)`. A tool step appends its list
reply (raising on a non-list reply) and runs the after-tool drain; a binary
merge step applies immediately with two sets available and defers into
`pending_merges` otherwise; a `count` step drains the satisfiable prefix of
`pending_merges` and replaces `context_last` with a length; any other merge
operator raises. -/
def execSteps : List Step → List (List Rec) → CtxVal → List String →
    Except String (List (List Rec) × CtxVal × List String)
  | [], sets, last, pending => .ok (sets, last, pending)
  | .toolCall r :: rest, sets, _last, pending =>
    match r with
    | .nonList => .error "Tool must return a list"
    | .lst res =>
      match drainToolLoop pending (sets ++ [res]) (.list res) with
      | .error e => .error e
      | .ok (p1, s1, l1) => execSteps rest s1 l1 p1
  | .merge op :: rest, sets, last, pending =>
    if isBinaryOp op then
      match sets with
      | a :: b :: _ =>
        let merged :=
          if op == "intersect" then merge_intersect sets
          else if op == "union" then merge_union sets
          else merge_difference a b
        execSteps rest [merged] (.list merged) pending
      | _ => execSteps rest sets last (pending ++ [op])
    else if op == "count" then
      match drainCountLoop pending sets last with
      | .error e => .error e
      | .ok (p1, s1, l1) =>
        let newLast :=
          match l1 with
          | .list l => CtxVal.int l.length
          | _ =>
            match s1.getLast? with
            | some t => CtxVal.int t.length
            | none => CtxVal.int 0
        execSteps rest s1 newLast p1
    else .error ("Unknown merge op " ++ op)

/-- `PlanExecutor.execute` on a validated plan: run the steps from the empty
state, run the end-of-plan drain, and return the final `context_last` (the
`"final"` entry of the returned dict). -/
def execute (steps : List Step) : Except String CtxVal :=
  match execSteps steps [] .none [] with
  | .error e => .error e
  | .ok (sets, last, pending) =>
    match drainCountLoop pending sets last with
    | .error e => .error e
    | .ok (_, _, last1) => .ok last1

/-- A JSON-style Python value, used for descriptor fields and RPC payloads. -/
inductive PyVal where
  | str (s : String)
  | int (n : Int)
  | list (l : List PyVal)
  | dict (entries : List (String × PyVal))
  | none

/-- The `allowed` field set of `ToolRegistry.normalize_method_spec`. -/
def allowedFields : List String :=
  ["type", "func", "params", "schema", "serializer",
   "method", "endpoint", "timeout", "path", "description", "id_param"]

/-- `ToolRegistry.normalize_method_spec`: a bare string becomes a
description-only descriptor, any other non-dict becomes the empty
descriptor; from a dict only the `allowed` fields are kept, and a missing
`params` is backfilled with `raw.get("params", [])`. -/
def normalize_method_spec (raw : PyVal) : List (String × PyVal) :=
  match raw with
  | .dict entries =>
    let out := entries.foldl
      (fun out kv => if allowedFields.contains kv.1 then insA out kv.1 kv.2 else out) []
    if hasA out "params" then out
    else insA out "params" ((lookA entries "params").getD (.list []))
  | .str s => [("description", .str s)]
  | _ => []

/-- `ToolRegistry._build` over the `tools` section of the declarative spec:
non-dict groups are skipped; within a group the key `"description"` is
skipped; every other method spec is normalized and stored under the flat
name `"group.method"`. -/
def buildRegistry (tools_section : List (String × PyVal)) :
    List (String × List (String × PyVal)) :=
  tools_section.foldl
    (fun acc gp =>
      match gp.2 with
      | .dict methods =>
        methods.foldl
          (fun acc mp =>
            if mp.1 == "description" then acc
            else insA acc (gp.1 ++ "." ++ mp.1) (normalize_method_spec mp.2)) acc
      | _ => acc) []

/-- One entry of `ToolRegistry.list_tools` for a stored descriptor: each
reported field is the descriptor's value with the defaults of the source
(`type` defaulting to `"python_function"`). -/
def listToolEntry (spec : List (String × PyVal)) : List (String × PyVal) :=
  [("type", (lookA spec "type").getD (.str "python_function")),
   ("func", (lookA spec "func").getD .none),
   ("params", (lookA spec "params").getD (.list [])),
   ("schema", (lookA spec "schema").getD .none),
   ("serializer", (lookA spec "serializer").getD .none),
   ("description", (lookA spec "description").getD (.str ""))]

/-- `ToolRegistry.list_tools`. -/
def list_tools (tools : List (String × List (String × PyVal))) :
    List (String × List (String × PyVal)) :=
  tools.map (fun p => (p.1, listToolEntry p.2))

/-- The execution strategy `execute_tool` selects for a descriptor. -/
inductive Strategy where
  | python_function
  | external_api
  | script
  | unknown
deriving DecidableEq

/-- The dispatch branch of `execute_tool`:
`tool_type = spec.get("type", "python_function")` is compared against the
three known strategy names, so a missing `type` selects the local
python-function path and any unrecognized value raises `ValueError`. -/
def execute_tool_branch (spec : List (String × PyVal)) : Strategy :=
  match (lookA spec "type").getD (.str "python_function") with
  | .str t =>
    if t == "python_function" then .python_function
    else if t == "external_api" then .external_api
    else if t == "script" then .script
    else .unknown
  | _ => .unknown

/-- The observable outcome of the completed subprocess in `execute_script`. -/
structure ProcResult where
  returncode : Int
  stdout : String
  stderr : String

/-- Python's `str.strip()` on the model level: remove leading and trailing
whitespace from the character list. -/
def pyStrip (s : String) : String :=
  ⟨((s.data.dropWhile Char.isWhitespace).reverse.dropWhile Char.isWhitespace).reverse⟩

/-- The result handling of `execute_script` once the subprocess has
completed, with `json.loads` abstracted as `parse` (`Option.none` models a
parse failure): nonzero exit raises carrying the trimmed stderr; on zero
exit `out = proc.stdout.strip()` and the result is
`json.loads(out) if out else None`, any parse failure falling back to the
raw trimmed text. -/
def execute_script (parse : String → Option PyVal) (proc : ProcResult) :
    Except String PyVal :=
  if proc.returncode ≠ 0 then .error ("script failed: " ++ pyStrip proc.stderr)
  else
    let out := pyStrip proc.stdout
    if out == "" then .ok .none
    else
      match parse out with
      | some j => .ok j
      | Option.none => .ok (.str out)

/-- The lifecycle of one `_rpc` result future. -/
inductive Slot where
  | waiting
  | resolved (v : PyVal)
  | rejected (e : String)
  | cancelled

/-- The connector's observable state: the ids currently in `self._pending`,
plus the state each created future has reached. -/
structure ClientState where
  pending : List String
  slots : List (String × Slot)

/-- A frame handed to `_receiver`: undecodable JSON, or a message whose
optional `id` comes with either a `"result"` value (`Sum.inl`) or an error
payload (`Sum.inr`). -/
inductive RMsg where
  | malformed
  | msg (idv : Option String) (body : PyVal ⊕ String)

/-- The send side of `MCPClient._rpc`: create a fresh future, register it in
`self._pending`, and send the envelope. -/
def rpcSend (st : ClientState) (id : String) : ClientState :=
  { pending := st.pending ++ [id], slots := insA st.slots id .waiting }

/-- One frame handled by `MCPClient._receiver`: undecodable frames are
skipped; a frame whose id is in `self._pending` pops the entry and resolves
(`"result"` present) or rejects (otherwise) the popped future; a frame with
a missing or unmatched id is discarded. -/
def receiverStep (st : ClientState) (m : RMsg) : ClientState :=
  match m with
  | .malformed => st
  | .msg idv body =>
    match idv with
    | Option.none => st
    | some id =>
      if st.pending.contains id then
        { pending := st.pending.erase id,
          slots := insA st.slots id
            (match body with
             | .inl v => .resolved v
             | .inr e => .rejected e) }
      else st

/-- The timeout path of `MCPClient._rpc`: `asyncio.wait_for` cancels the
future and raises `TimeoutError`, and `_rpc` performs no cleanup, so
`self._pending` is left untouched. -/
def rpcTimeout (st : ClientState) (id : String) : ClientState :=
  { st with slots := insA st.slots id .cancelled }

/-- An event observable at the connector. -/
inductive CEv where
  | send (id : String)
  | recv (m : RMsg)
  | timeoutEv (id : String)

/-- One connector event applied to the state. -/
def clientStep (st : ClientState) : CEv → ClientState
  | .send id => rpcSend st id
  | .recv m => receiverStep st m
  | .timeoutEv id => rpcTimeout st id

/-- A connector history starting from the empty pending table. -/
def clientRun (evs : List CEv) : ClientState :=
  evs.foldl clientStep ⟨[], []⟩

/-- What reaches `_receiver`'s loop from the link: a decoded frame, or the
closure of the link (the `async for` ending or raising). -/
inductive LinkEv where
  | frame (m : RMsg)
  | closed

/-- The whole `_receiver` task body: process frames until the link closes.
The bare `except: pass` swallows the closure, so on closure nothing touches
`self._pending`, no entry is failed, no reconnect is attempted, the
coroutine returns, and later link events are never seen. -/
def receiverLoop : ClientState → List LinkEv → ClientState
  | st, [] => st
  | st, .frame m :: rest => receiverLoop (receiverStep st m) rest
  | st, .closed :: _ => st

/-- A record with identity key `k` (payload 0), used for concrete plans. -/
def rc (k : Nat) : Rec :=
  ⟨some k, 0⟩

/-- A record with no `id` field. -/
def rNoId : Rec :=
  ⟨Option.none, 7⟩

/-- A JSON parser that fails on every input (for witnesses). -/
def noParse : String → Option PyVal :=
  fun _ => Option.none

/-- The keys of an association list are pairwise distinct (true of every
model of a Python dict). -/
def NodupKeys {α β : Type} (m : List (α × β)) : Prop :=
  (m.map Prod.fst).Nodup

/-- Every entry of the map holds a record whose `id` equals its key (an
invariant of every map built by `_index_by_id`-style insertion). -/
def Keyed (m : List (Nat × Rec)) : Prop :=
  ∀ p ∈ m, p.2.key = some p.1

/-- The latest entry of an association list carrying key `k` — the value a
Python dict built from those items retains for `k`. -/
def lastEntry {α β : Type} [BEq α] (l : List (α × β)) (k : α) : Option (α × β) :=
  (l.filter (fun p => p.1 == k)).getLast?

/-- The counting rule as the spec states it: if `last` is list-valued its
length, else the length of the last element of `sets` if that is a list,
else `0` (in this model every element of `sets` is a list). -/
def countSpecVal (last : CtxVal) (sets : List (List Rec)) : CtxVal :=
  match last with
  | .list l => .int l.length
  | _ =>
    match sets.getLast? with
    | some t => .int t.length
    | Option.none => .int 0

/-- A spec's `tools` section with every group-level `"description"` entry
removed (groups that are not dicts are untouched). -/
def eraseGroupDesc (sec : List (String × PyVal)) : List (String × PyVal) :=
  sec.map (fun gp =>
    match gp.2 with
    | .dict ms => (gp.1, .dict (ms.filter (fun p => !(p.1 == "description"))))
    | _ => gp)

/-- The nine descriptor fields the specification's normalization sentence
lists as recognized (reading the spec's `target` as the source's `func`). -/
def specClaimedFields : List String :=
  ["type", "func", "params", "schema", "serializer",
   "timeout", "path", "endpoint", "description"]

section AListLemmas

variable {α β : Type} [BEq α] [LawfulBEq α]

theorem find_overwrite_self (m : List (α × β)) (k : α) (v : β)
    (h : m.any (fun p => p.1 == k) = true) :
    (m.map (fun p => if p.1 == k then (k, v) else p)).find? (fun p => p.1 == k) =
      some (k, v) := by
  induction m with
  | nil => simp at h
  | cons q t ih =>
    by_cases hq : (q.1 == k) = true
    · simp [hq]
    · have ht : t.any (fun p => p.1 == k) = true := by
        simp only [List.any_cons, hq, Bool.false_or] at h
        exact h
      simp only [List.map_cons, if_neg hq]
      rw [List.find?_cons_of_neg _ (by simp [hq]), ih ht]

theorem find_overwrite_ne (m : List (α × β)) (k k' : α) (v : β)
    (hne : (k' == k) = false) :
    (m.map (fun p => if p.1 == k then (k, v) else p)).find? (fun p => p.1 == k') =
      m.find? (fun p => p.1 == k') := by
  induction m with
  | nil => simp
  | cons q t ih =>
    by_cases hq : (q.1 == k) = true
    · have hqk : q.1 = k := eq_of_beq hq
      have h1 : (k == k') = false := by
        cases h2 : k == k' with
        | false => rfl
        | true => rw [eq_of_beq h2, beq_self_eq_true] at hne; exact absurd hne (by simp)
      have h2 : (q.1 == k') = false := by rw [hqk]; exact h1
      simp only [List.map_cons, if_pos hq]
      rw [List.find?_cons_of_neg _ (by simp [h1]),
        List.find?_cons_of_neg _ (by simp [h2]), ih]
    · simp only [List.map_cons, if_neg hq]
      cases hqq : (q.1 == k') with
      | true =>
        rw [List.find?_cons_of_pos _ (by simp [hqq]),
          List.find?_cons_of_pos _ (by simp [hqq])]
      | false =>
        rw [List.find?_cons_of_neg _ (by simp [hqq]),
          List.find?_cons_of_neg _ (by simp [hqq]), ih]

theorem lookA_insA_self (m : List (α × β)) (k : α) (v : β) :
    lookA (insA m k v) k = some v := by
  unfold insA lookA
  by_cases h : m.any (fun p => p.1 == k) = true
  · rw [if_pos h, find_overwrite_self m k v h]
    rfl
  · rw [if_neg h]
    have hf : m.find? (fun p => p.1 == k) = none := by
      rw [List.find?_eq_none]
      intro x hx hpx
      exact h (List.any_eq_true.mpr ⟨x, hx, hpx⟩)
    rw [List.find?_append, hf, Option.none_or,
      List.find?_cons_of_pos _ (by simp)]
    rfl

theorem lookA_insA_ne (m : List (α × β)) (k k' : α) (v : β)
    (hne : (k' == k) = false) :
    lookA (insA m k v) k' = lookA m k' := by
  unfold insA lookA
  by_cases h : m.any (fun p => p.1 == k) = true
  · rw [if_pos h, find_overwrite_ne m k k' v hne]
  · rw [if_neg h, List.find?_append]
    have h1 : (k == k') = false := by
      cases h2 : k == k' with
      | false => rfl
      | true => rw [eq_of_beq h2, beq_self_eq_true] at hne; exact absurd hne (by simp)
    rw [show ([(k, v)].find? (fun p => p.1 == k')) = none by simp [h1],
      Option.or_none]

theorem any_key_overwrite (m : List (α × β)) (k k' : α) (v : β) :
    (m.map (fun p => if p.1 == k then (k, v) else p)).any (fun p => p.1 == k') =
      m.any (fun p => p.1 == k') := by
  induction m with
  | nil => rfl
  | cons q t ih =>
    by_cases hq : (q.1 == k) = true
    · have hqk : q.1 = k := eq_of_beq hq
      simp only [List.map_cons, if_pos hq, List.any_cons, ih]
      rw [show ((k, v).1 == k') = (q.1 == k') by rw [hqk]]
    · simp only [List.map_cons, if_neg hq, List.any_cons, ih]

theorem hasA_insA (m : List (α × β)) (k k' : α) (v : β) :
    hasA (insA m k v) k' = (k' == k || hasA m k') := by
  unfold insA hasA
  by_cases h : m.any (fun p => p.1 == k) = true
  · rw [if_pos h, any_key_overwrite]
    cases hkk : (k' == k) with
    | true => rw [eq_of_beq hkk, h, Bool.true_or]
    | false => rw [Bool.false_or]
  · rw [if_neg h, List.any_append]
    simp only [List.any_cons, List.any_nil, Bool.or_false]
    rw [Bool.or_comm]
    have : ((k, v).1 == k') = (k' == k) := by
      show (k == k') = (k' == k)
      cases h1 : k == k' with
      | true => rw [eq_of_beq h1, beq_self_eq_true]
      | false =>
        cases h2 : k' == k with
        | true =>
          rw [eq_of_beq h2, beq_self_eq_true] at h1
          exact absurd h1 (by simp)
        | false => rfl
    rw [this]

end AListLemmas

theorem or_some_absorb {γ : Type} (a : Option γ) (x : γ) (c : Option γ) :
    (a.or (some x)).or c = a.or (some x) := by
  cases a <;> rfl

theorem lastWithKey_cons (r : Rec) (t : List Rec) (k : Nat) :
    lastWithKey (r :: t) k =
      if r.key == some k then (lastWithKey t k).or (some r) else lastWithKey t k := by
  unfold lastWithKey
  simp only [List.filter_cons]
  by_cases h : (r.key == some k) = true
  · rw [if_pos h, if_pos h,
      show (r :: List.filter (fun x => x.key == some k) t) =
        [r] ++ List.filter (fun x => x.key == some k) t from rfl,
      List.getLast?_append]
    rfl
  · rw [if_neg h, if_neg h]

theorem lookA_indexById_aux (l : List Rec) (m : List (Nat × Rec)) (k : Nat) :
    lookA (l.foldl (fun acc item =>
      match item.key with
      | some k1 => insA acc k1 item
      | Option.none => acc) m) k = (lastWithKey l k).or (lookA m k) := by
  induction l generalizing m with
  | nil => simp [lastWithKey]
  | cons r t ih =>
    rw [List.foldl_cons, ih, lastWithKey_cons]
    cases hk : r.key with
    | none => simp [hk]
    | some k1 =>
      by_cases h1 : (k1 == k) = true
      · have hkk : k1 = k := eq_of_beq h1
        have hcond : (some k1 == some k) = true := by rw [hkk]; exact beq_self_eq_true _
        rw [if_pos hcond, hkk, lookA_insA_self]
        exact (or_some_absorb _ _ _).symm
      · have h1n : k1 ≠ k := by
          intro he
          rw [he, beq_self_eq_true] at h1
          exact h1 rfl
        have hne : (k == k1) = false := beq_eq_false_iff_ne.mpr (fun he => h1n he.symm)
        have hcond : ¬((some k1 == some k) = true) := by
          intro hc
          exact h1n (Option.some.inj (eq_of_beq hc))
        rw [if_neg hcond, lookA_insA_ne _ _ _ _ hne]

theorem lookA_indexById (l : List Rec) (k : Nat) :
    lookA (indexById l) k = lastWithKey l k := by
  unfold indexById
  rw [lookA_indexById_aux]
  cases lastWithKey l k <;> rfl

theorem hasA_indexById_aux (l : List Rec) (m : List (Nat × Rec)) (k : Nat) :
    hasA (l.foldl (fun acc item =>
      match item.key with
      | some k1 => insA acc k1 item
      | Option.none => acc) m) k = (l.any (fun r => r.key == some k) || hasA m k) := by
  induction l generalizing m with
  | nil => rfl
  | cons r t ih =>
    rw [List.foldl_cons, ih, List.any_cons]
    cases hk : r.key with
    | none => simp [hk]
    | some k1 =>
      rw [hasA_insA]
      cases h1 : (k == k1) with
      | true =>
        rw [eq_of_beq h1]
        simp
      | false =>
        have hcond : (some k1 == some k) = false := by
          cases h2 : (some k1 == some k) with
          | false => rfl
          | true =>
            rw [(Option.some.inj (eq_of_beq h2) : k1 = k), beq_self_eq_true] at h1
            exact absurd h1 (by simp)
        rw [hcond, Bool.false_or, Bool.false_or]

theorem hasA_indexById (l : List Rec) (k : Nat) :
    hasA (indexById l) k = l.any (fun r => r.key == some k) := by
  unfold indexById
  rw [hasA_indexById_aux]
  simp [hasA]

theorem nodupKeys_insA {α β : Type} [BEq α] [LawfulBEq α] (m : List (α × β)) (k : α) (v : β)
    (h : NodupKeys m) : NodupKeys (insA m k v) := by
  unfold insA NodupKeys at *
  by_cases ha : m.any (fun p => p.1 == k) = true
  · rw [if_pos ha]
    have hmap : (m.map (fun p => if p.1 == k then (k, v) else p)).map Prod.fst =
        m.map Prod.fst := by
      rw [List.map_map]
      apply List.map_congr_left
      intro p hp
      by_cases hp1 : (p.1 == k) = true
      · show (if (p.1 == k) = true then (k, v) else p).1 = p.1
        rw [if_pos hp1]
        exact (eq_of_beq hp1).symm
      · show (if (p.1 == k) = true then (k, v) else p).1 = p.1
        rw [if_neg hp1]
    rw [hmap]
    exact h
  · rw [if_neg ha, List.map_append]
    refine List.Nodup.append h (by simp) ?_
    intro x hx hx1
    simp only [List.map_cons, List.map_nil, List.mem_singleton] at hx1
    rcases List.mem_map.mp hx with ⟨p, hp, hpx⟩
    apply ha
    refine List.any_eq_true.mpr ⟨p, hp, ?_⟩
    rw [hpx, hx1]
    exact beq_self_eq_true _

theorem nodupKeys_indexById_aux (l : List Rec) (m : List (Nat × Rec))
    (h : NodupKeys m) :
    NodupKeys (l.foldl (fun acc item =>
      match item.key with
      | some k1 => insA acc k1 item
      | Option.none => acc) m) := by
  induction l generalizing m with
  | nil => exact h
  | cons r t ih =>
    rw [List.foldl_cons]
    cases hk : r.key with
    | none => exact ih m h
    | some k1 => exact ih _ (nodupKeys_insA m k1 r h)

theorem nodupKeys_indexById (l : List Rec) : NodupKeys (indexById l) :=
  nodupKeys_indexById_aux l [] (by simp [NodupKeys])

theorem lookA_eq_of_mem {α β : Type} [BEq α] [LawfulBEq α] (m : List (α × β))
    (h : NodupKeys m) (p : α × β) (hp : p ∈ m) : lookA m p.1 = some p.2 := by
  induction m with
  | nil => cases hp
  | cons q t ih =>
    rcases List.mem_cons.mp hp with hq | ht
    · subst hq
      unfold lookA
      have hfind : List.find? (fun x => x.1 == p.1) (p :: t) = some p :=
        List.find?_cons_of_pos _ (beq_self_eq_true _)
      rw [hfind]
      rfl
    · have hqp : ¬(q.1 == p.1) = true := by
        intro hb
        have : q.1 ∈ t.map Prod.fst := by
          rw [eq_of_beq hb]
          exact List.mem_map.mpr ⟨p, ht, rfl⟩
        unfold NodupKeys at h
        rw [List.map_cons, List.nodup_cons] at h
        exact h.1 this
      unfold lookA
      have hfind : List.find? (fun x => x.1 == p.1) (q :: t) =
          List.find? (fun x => x.1 == p.1) t :=
        List.find?_cons_of_neg _ hqp
      rw [hfind]
      have ht2 : NodupKeys t := by
        unfold NodupKeys at h ⊢
        rw [List.map_cons, List.nodup_cons] at h
        exact h.2
      exact ih ht2 ht

theorem mem_of_lookA {α β : Type} [BEq α] [LawfulBEq α] (m : List (α × β))
    (k : α) (v : β) (h : lookA m k = some v) : (k, v) ∈ m := by
  unfold lookA at h
  cases hf : m.find? (fun p => p.1 == k) with
  | none => rw [hf] at h; cases h
  | some q =>
    rw [hf] at h
    have hq : q ∈ m := List.mem_of_find?_eq_some hf
    have hqk0 := List.find?_some hf
    have hqk : (q.1 == k) = true := hqk0
    have hv : q.2 = v := Option.some.inj h
    have : q = (k, v) := by
      rcases q with ⟨a, b⟩
      simp only at hv
      rw [Prod.mk.injEq]
      exact ⟨eq_of_beq hqk, hv⟩
    rw [← this]
    exact hq

theorem keyed_insA (m : List (Nat × Rec)) (h : Keyed m) (k : Nat) (v : Rec)
    (hv : v.key = some k) : Keyed (insA m k v) := by
  unfold insA
  by_cases ha : m.any (fun p => p.1 == k) = true
  · rw [if_pos ha]
    intro p hp
    rcases List.mem_map.mp hp with ⟨q, hq, hqp⟩
    by_cases h1 : (q.1 == k) = true
    · rw [if_pos h1] at hqp
      rw [← hqp]
      exact hv
    · rw [if_neg h1] at hqp
      rw [← hqp]
      exact h q hq
  · rw [if_neg ha]
    intro p hp
    rcases List.mem_append.mp hp with hm | hs
    · exact h p hm
    · rw [List.mem_singleton] at hs
      rw [hs]
      exact hv

theorem keyed_indexById_aux (l : List Rec) (m : List (Nat × Rec)) (h : Keyed m) :
    Keyed (l.foldl (fun acc item =>
      match item.key with
      | some k1 => insA acc k1 item
      | Option.none => acc) m) := by
  induction l generalizing m with
  | nil => exact h
  | cons r t ih =>
    rw [List.foldl_cons]
    cases hk : r.key with
    | none => exact ih m h
    | some k1 => exact ih _ (keyed_insA m h k1 r hk)

theorem keyed_indexById (l : List Rec) : Keyed (indexById l) :=
  keyed_indexById_aux l [] (by intro p hp; cases hp)

theorem mem_merge_intersect (r0 r1 : List Rec) (rs : List (List Rec)) (x : Rec) :
    x ∈ merge_intersect (r0 :: r1 :: rs) ↔
      ∃ k, lastWithKey r0 k = some x ∧ ∀ r ∈ r1 :: rs, ∃ y ∈ r, y.key = some k := by
  simp only [merge_intersect]
  constructor
  · intro hx
    rcases List.mem_map.mp hx with ⟨p, hpf, hpx⟩
    rcases List.mem_filter.mp hpf with ⟨hpm, hP⟩
    refine ⟨p.1, ?_, ?_⟩
    · rw [← lookA_indexById, ← hpx]
      exact lookA_eq_of_mem _ (nodupKeys_indexById r0) p hpm
    · intro r hr
      have hall := List.all_eq_true.mp hP (indexById r) (List.mem_map.mpr ⟨r, hr, rfl⟩)
      rw [hasA_indexById] at hall
      rcases List.any_eq_true.mp hall with ⟨y, hy, hyk⟩
      exact ⟨y, hy, eq_of_beq hyk⟩
  · rintro ⟨k, hlast, hall⟩
    have hlook : lookA (indexById r0) k = some x := by
      rw [lookA_indexById]
      exact hlast
    have hmem : (k, x) ∈ indexById r0 := mem_of_lookA _ _ _ hlook
    refine List.mem_map.mpr ⟨(k, x), List.mem_filter.mpr ⟨hmem, ?_⟩, rfl⟩
    apply List.all_eq_true.mpr
    intro m hm
    rcases List.mem_map.mp hm with ⟨r, hr, hrm⟩
    rw [← hrm, hasA_indexById]
    rcases hall r hr with ⟨y, hy, hyk⟩
    exact List.any_eq_true.mpr ⟨y, hy, by rw [hyk]; exact beq_self_eq_true _⟩

theorem mem_merge_difference (a b : List Rec) (x : Rec) :
    x ∈ merge_difference a b ↔
      ∃ k, lastWithKey a k = some x ∧ ∀ y ∈ b, y.key ≠ some k := by
  simp only [merge_difference]
  constructor
  · intro hx
    rcases List.mem_map.mp hx with ⟨p, hpf, hpx⟩
    rcases List.mem_filter.mp hpf with ⟨hpm, hP⟩
    refine ⟨p.1, ?_, ?_⟩
    · rw [← lookA_indexById, ← hpx]
      exact lookA_eq_of_mem _ (nodupKeys_indexById a) p hpm
    · intro y hy hyk
      have hfalse : hasA (indexById b) p.1 = false := by
        cases hb : hasA (indexById b) p.1 with
        | false => rfl
        | true => rw [hb] at hP; exact absurd hP (by simp)
      rw [hasA_indexById] at hfalse
      have : b.any (fun r => r.key == some p.1) = true :=
        List.any_eq_true.mpr ⟨y, hy, by rw [hyk]; exact beq_self_eq_true _⟩
      rw [this] at hfalse
      exact absurd hfalse (by simp)
  · rintro ⟨k, hlast, hall⟩
    have hlook : lookA (indexById a) k = some x := by
      rw [lookA_indexById]
      exact hlast
    have hmem : (k, x) ∈ indexById a := mem_of_lookA _ _ _ hlook
    refine List.mem_map.mpr ⟨(k, x), List.mem_filter.mpr ⟨hmem, ?_⟩, rfl⟩
    have hfalse : hasA (indexById b) k = false := by
      rw [hasA_indexById]
      cases hb : b.any (fun r => r.key == some k) with
      | false => rfl
      | true =>
        rcases List.any_eq_true.mp hb with ⟨y, hy, hyk⟩
        exact absurd (eq_of_beq hyk) (hall y hy)
    rw [hfalse]
    rfl

theorem keyed_unionFold (results : List (List Rec)) (m : List (Nat × Rec))
    (h : Keyed m) :
    Keyed (results.foldl (fun m r =>
      r.foldl (fun acc item =>
        match item.key with
        | some k => insA acc k item
        | Option.none => acc) m) m) := by
  induction results generalizing m with
  | nil => exact h
  | cons r t ih => exact ih _ (keyed_indexById_aux r m h)

theorem key_of_mem_values (m : List (Nat × Rec)) (h : Keyed m) (x : Rec)
    (hx : x ∈ m.map (fun p => p.2)) : ∃ k, x.key = some k := by
  rcases List.mem_map.mp hx with ⟨p, hp, hpx⟩
  exact ⟨p.1, by rw [← hpx]; exact h p hp⟩

theorem applyMergeOp_binary_ok (op : String) (sets : List (List Rec)) (last : CtxVal)
    (hb : isBinaryOp op = true) :
    ∃ r, applyMergeOp op sets last = .ok r := by
  unfold isBinaryOp at hb
  unfold applyMergeOp
  by_cases h1 : (op == "intersect") = true
  · rw [if_pos h1]
    exact ⟨_, rfl⟩
  · rw [if_neg h1]
    by_cases h2 : (op == "union") = true
    · rw [if_pos h2]
      exact ⟨_, rfl⟩
    · rw [if_neg h2]
      have h3 : (op == "difference") = true := by
        rcases Bool.or_eq_true_iff.mp hb with h | h
        · rcases Bool.or_eq_true_iff.mp h with h | h
          · exact absurd h h1
          · exact absurd h h2
        · exact h
      rw [if_pos h3]
      cases sets with
      | nil => exact ⟨_, rfl⟩
      | cons a ss =>
        cases ss with
        | nil => exact ⟨_, rfl⟩
        | cons b t => exact ⟨_, rfl⟩

theorem drainCountLoop_ok (pending : List String) (sets : List (List Rec)) (last : CtxVal)
    (hb : ∀ op ∈ pending, isBinaryOp op = true) :
    ∃ p1 s1 l1, drainCountLoop pending sets last = .ok (p1, s1, l1) ∧
      (∀ op1 p2, p1 = op1 :: p2 → isBinaryOp op1 = true ∧ s1.length < 2) := by
  induction pending generalizing sets last with
  | nil =>
    exact ⟨[], sets, last, rfl, by intro op1 p2 h; cases h⟩
  | cons op rest ih =>
    have hop : isBinaryOp op = true := hb op (List.mem_cons_self _ _)
    by_cases hlen : sets.length < 2
    · refine ⟨op :: rest, sets, last, ?_, ?_⟩
      · simp [drainCountLoop, hop, hlen]
      · intro op1 p2 h
        rw [List.cons.injEq] at h
        refine ⟨h.1 ▸ hop, hlen⟩
    · rcases applyMergeOp_binary_ok op sets last hop with ⟨⟨app, s2, l2⟩, happ⟩
      rcases ih s2 l2 (fun o ho => hb o (List.mem_cons_of_mem _ ho)) with
        ⟨p1, s1, l1, hd, hstop⟩
      refine ⟨p1, s1, l1, ?_, hstop⟩
      simp [drainCountLoop, hop, hlen, happ, hd]

theorem execSteps_count_eq (rest : List Step) (sets : List (List Rec)) (last : CtxVal)
    (pending p1 : List String) (s1 : List (List Rec)) (l1 : CtxVal)
    (hd : drainCountLoop pending sets last = .ok (p1, s1, l1)) :
    execSteps (.merge "count" :: rest) sets last pending =
      execSteps rest s1 (countSpecVal l1 s1) p1 := by
  have hnb : isBinaryOp "count" = false := by rfl
  simp only [execSteps, hnb, Bool.false_eq_true, if_false, beq_self_eq_true, if_true, hd]
  cases l1 with
  | list l => rfl
  | none =>
    cases hgl : s1.getLast? with
    | none => simp [countSpecVal, hgl]
    | some t => simp [countSpecVal, hgl]
  | int n =>
    cases hgl : s1.getLast? with
    | none => simp [countSpecVal, hgl]
    | some t => simp [countSpecVal, hgl]

theorem mem_insA {α β : Type} [BEq α] (m : List (α × β)) (k : α) (v : β)
    (p : α × β) (hp : p ∈ insA m k v) : p ∈ m ∨ p = (k, v) := by
  unfold insA at hp
  by_cases h : m.any (fun q => q.1 == k) = true
  · rw [if_pos h] at hp
    rcases List.mem_map.mp hp with ⟨q, hq, hqp⟩
    by_cases h1 : (q.1 == k) = true
    · rw [if_pos h1] at hqp
      exact Or.inr hqp.symm
    · rw [if_neg h1] at hqp
      exact Or.inl (hqp ▸ hq)
  · rw [if_neg h] at hp
    rcases List.mem_append.mp hp with hm | hs
    · exact Or.inl hm
    · exact Or.inr (List.mem_singleton.mp hs)

theorem lookA_of_hasA_false {α β : Type} [BEq α] (m : List (α × β)) (k : α)
    (h : hasA m k = false) : lookA m k = none := by
  unfold hasA at h
  unfold lookA
  have hnone : m.find? (fun p => p.1 == k) = none := by
    rw [List.find?_eq_none]
    intro x hx hpx
    have hany : m.any (fun p => p.1 == k) = true := List.any_eq_true.mpr ⟨x, hx, hpx⟩
    rw [hany] at h
    exact absurd h (by simp)
  rw [hnone]
  rfl

theorem lastEntry_cons {α β : Type} [BEq α] (q : α × β) (t : List (α × β)) (k : α) :
    lastEntry (q :: t) k =
      if q.1 == k then (lastEntry t k).or (some q) else lastEntry t k := by
  unfold lastEntry
  simp only [List.filter_cons]
  by_cases h : (q.1 == k) = true
  · rw [if_pos h, if_pos h,
      show (q :: List.filter (fun p => p.1 == k) t) =
        [q] ++ List.filter (fun p => p.1 == k) t from rfl,
      List.getLast?_append]
    rfl
  · rw [if_neg h, if_neg h]

theorem lastEntry_eq_find_of_nodup {α β : Type} [BEq α] [LawfulBEq α]
    (l : List (α × β)) (k : α) (h : NodupKeys l) :
    lastEntry l k = l.find? (fun p => p.1 == k) := by
  induction l with
  | nil => rfl
  | cons q t ih =>
    have hnd : NodupKeys t := by
      unfold NodupKeys at h ⊢
      rw [List.map_cons, List.nodup_cons] at h
      exact h.2
    rw [lastEntry_cons]
    by_cases h1 : (q.1 == k) = true
    · rw [if_pos h1]
      have hkt : ∀ p ∈ t, ¬((fun p => p.1 == k) p = true) := by
        intro p hp hpk
        unfold NodupKeys at h
        rw [List.map_cons, List.nodup_cons] at h
        apply h.1
        rw [eq_of_beq h1, ← eq_of_beq hpk]
        exact List.mem_map.mpr ⟨p, hp, rfl⟩
      have hfind : List.find? (fun p => p.1 == k) (q :: t) = some q :=
        List.find?_cons_of_pos _ h1
      rw [hfind]
      have : lastEntry t k = none := by
        unfold lastEntry
        rw [List.filter_eq_nil_iff.mpr hkt]
        rfl
      rw [this]
      rfl
    · rw [if_neg h1]
      have hfind : List.find? (fun p => p.1 == k) (q :: t) =
          List.find? (fun p => p.1 == k) t :=
        List.find?_cons_of_neg _ h1
      rw [hfind]
      exact ih hnd

theorem lookA_normFold (entries m : List (String × PyVal)) (k : String) :
    lookA (entries.foldl (fun out kv =>
      if allowedFields.contains kv.1 then insA out kv.1 kv.2 else out) m) k =
    if allowedFields.contains k then
      ((lastEntry entries k).map (fun p => p.2)).or (lookA m k)
    else lookA m k := by
  induction entries generalizing m with
  | nil =>
    by_cases hc : allowedFields.contains k = true
    · rw [if_pos hc]
      rfl
    · rw [if_neg hc]
      rfl
  | cons q t ih =>
    rw [List.foldl_cons, ih, lastEntry_cons]
    by_cases hq : (q.1 == k) = true
    · have hqk : q.1 = k := eq_of_beq hq
      rw [if_pos hq]
      by_cases hc : allowedFields.contains k = true
      · rw [if_pos hc, if_pos hc, if_pos (hqk ▸ hc), hqk, lookA_insA_self]
        cases hoc : lastEntry t k with
        | none => rfl
        | some p => rfl
      · rw [if_neg hc, if_neg hc, if_neg (by rw [hqk]; exact hc)]
    · have hqk : (k == q.1) = false := by
        cases h2 : k == q.1 with
        | false => rfl
        | true => rw [eq_of_beq h2, beq_self_eq_true] at hq; exact absurd rfl hq
      rw [if_neg hq]
      by_cases hin : allowedFields.contains q.1 = true
      · rw [if_pos hin, lookA_insA_ne _ _ _ _ hqk]
      · rw [if_neg hin]

theorem normalize_keys_allowed (raw : PyVal) (p : String × PyVal)
    (hp : p ∈ normalize_method_spec raw) : allowedFields.contains p.1 = true := by
  cases raw with
  | dict entries =>
    have hdef : normalize_method_spec (.dict entries) =
        (if hasA (entries.foldl (fun out kv =>
            if allowedFields.contains kv.1 then insA out kv.1 kv.2 else out)
            ([] : List (String × PyVal))) "params" then
          entries.foldl (fun out kv =>
            if allowedFields.contains kv.1 then insA out kv.1 kv.2 else out)
            ([] : List (String × PyVal))
        else
          insA (entries.foldl (fun out kv =>
            if allowedFields.contains kv.1 then insA out kv.1 kv.2 else out)
            ([] : List (String × PyVal))) "params"
            ((lookA entries "params").getD (.list []))) := rfl
    rw [hdef] at hp
    have hfold : ∀ q ∈ entries.foldl (fun out kv =>
        if allowedFields.contains kv.1 then insA out kv.1 kv.2 else out)
        ([] : List (String × PyVal)), allowedFields.contains q.1 = true := by
      have haux : ∀ (es m : List (String × PyVal)),
          (∀ q ∈ m, allowedFields.contains q.1 = true) →
          ∀ q ∈ es.foldl (fun out kv =>
            if allowedFields.contains kv.1 then insA out kv.1 kv.2 else out) m,
            allowedFields.contains q.1 = true := by
        intro es
        induction es with
        | nil => intro m hm q hq; exact hm q hq
        | cons e t ih =>
          intro m hm q hq
          rw [List.foldl_cons] at hq
          by_cases he : allowedFields.contains e.1 = true
          · rw [if_pos he] at hq
            refine ih _ ?_ q hq
            intro q1 hq1
            rcases mem_insA _ _ _ _ hq1 with hq2 | hq2
            · exact hm q1 hq2
            · rw [hq2]
              exact he
          · rw [if_neg he] at hq
            exact ih _ hm q hq
      exact haux entries [] (by intro q hq; cases hq)
    by_cases hpar : hasA (entries.foldl (fun out kv =>
        if allowedFields.contains kv.1 then insA out kv.1 kv.2 else out)
        ([] : List (String × PyVal))) "params" = true
    · rw [if_pos hpar] at hp
      exact hfold p hp
    · rw [if_neg hpar] at hp
      rcases mem_insA _ _ _ _ hp with hq | hq
      · exact hfold p hq
      · rw [hq]
        rfl
  | str s =>
    rcases List.mem_singleton.mp hp with h
    rw [h]
    rfl
  | int n => cases hp
  | list l => cases hp
  | none => cases hp

theorem normalize_drops (entries : List (String × PyVal)) (k : String)
    (hc : allowedFields.contains k = false) :
    lookA (normalize_method_spec (.dict entries)) k = none := by
  cases hl : lookA (normalize_method_spec (.dict entries)) k with
  | none => rfl
  | some v =>
    have hmem := mem_of_lookA _ _ _ hl
    have := normalize_keys_allowed (.dict entries) (k, v) hmem
    rw [hc] at this
    exact absurd this (by simp)

theorem normalize_survives (entries : List (String × PyVal)) (k : String) (v : PyVal)
    (hnd : NodupKeys entries) (hc : allowedFields.contains k = true)
    (hv : lookA entries k = some v) :
    lookA (normalize_method_spec (.dict entries)) k = some v := by
  have hout : lookA (entries.foldl (fun out kv =>
      if allowedFields.contains kv.1 then insA out kv.1 kv.2 else out)
      ([] : List (String × PyVal))) k = some v := by
    rw [lookA_normFold, if_pos hc, lastEntry_eq_find_of_nodup entries k hnd]
    have : (entries.find? (fun p => p.1 == k)).map (fun p => p.2) = some v := hv
    cases hf : entries.find? (fun p => p.1 == k) with
    | none => rw [hf] at this; cases this
    | some q =>
      rw [hf] at this
      rw [show (some q).map (fun p : String × PyVal => p.2) = some q.2 from rfl]
      rw [show (some q).map (fun p : String × PyVal => p.2) = some q.2 from rfl] at this
      rw [this]
      rfl
  have hdef : normalize_method_spec (.dict entries) =
      (if hasA (entries.foldl (fun out kv =>
          if allowedFields.contains kv.1 then insA out kv.1 kv.2 else out)
          ([] : List (String × PyVal))) "params" then
        entries.foldl (fun out kv =>
          if allowedFields.contains kv.1 then insA out kv.1 kv.2 else out)
          ([] : List (String × PyVal))
      else
        insA (entries.foldl (fun out kv =>
          if allowedFields.contains kv.1 then insA out kv.1 kv.2 else out)
          ([] : List (String × PyVal))) "params"
          ((lookA entries "params").getD (.list []))) := rfl
  rw [hdef]
  by_cases hpar : hasA (entries.foldl (fun out kv =>
      if allowedFields.contains kv.1 then insA out kv.1 kv.2 else out)
      ([] : List (String × PyVal))) "params" = true
  · rw [if_pos hpar]
    exact hout
  · rw [if_neg hpar]
    by_cases hk : k = "params"
    · exfalso
      have hfalse : hasA (entries.foldl (fun out kv =>
          if allowedFields.contains kv.1 then insA out kv.1 kv.2 else out)
          ([] : List (String × PyVal))) "params" = false := by
        cases h2 : hasA (entries.foldl (fun out kv =>
            if allowedFields.contains kv.1 then insA out kv.1 kv.2 else out)
            ([] : List (String × PyVal))) "params" with
        | false => rfl
        | true => exact absurd h2 hpar
      rw [← hk] at hfalse
      rw [lookA_of_hasA_false _ _ hfalse] at hout
      cases hout
    · have hne : (k == "params") = false :=
        beq_eq_false_iff_ne.mpr hk
      rw [lookA_insA_ne _ _ _ _ hne]
      exact hout

theorem innerFold_skip_desc (g : String) (ms : List (String × PyVal))
    (acc : List (String × List (String × PyVal))) :
    (ms.filter (fun p => !(p.1 == "description"))).foldl
      (fun acc mp =>
        if mp.1 == "description" then acc
        else insA acc (g ++ "." ++ mp.1) (normalize_method_spec mp.2)) acc =
    ms.foldl
      (fun acc mp =>
        if mp.1 == "description" then acc
        else insA acc (g ++ "." ++ mp.1) (normalize_method_spec mp.2)) acc := by
  induction ms generalizing acc with
  | nil => rfl
  | cons mp t ih =>
    simp only [List.filter_cons]
    by_cases h : (mp.1 == "description") = true
    · rw [if_neg (by rw [h]; simp), List.foldl_cons, if_pos h, ih]
    · rw [if_pos (by rw [show (mp.1 == "description") = false by
          cases h2 : mp.1 == "description" with
          | false => rfl
          | true => exact absurd h2 h]; simp),
        List.foldl_cons, List.foldl_cons, if_neg h, ih]

theorem buildRegistry_skips_group_desc (sec : List (String × PyVal)) :
    buildRegistry (eraseGroupDesc sec) = buildRegistry sec := by
  suffices haux : ∀ acc : List (String × List (String × PyVal)),
      (eraseGroupDesc sec).foldl
        (fun acc gp =>
          match gp.2 with
          | .dict methods =>
            methods.foldl
              (fun acc mp =>
                if mp.1 == "description" then acc
                else insA acc (gp.1 ++ "." ++ mp.1) (normalize_method_spec mp.2)) acc
          | _ => acc) acc =
      sec.foldl
        (fun acc gp =>
          match gp.2 with
          | .dict methods =>
            methods.foldl
              (fun acc mp =>
                if mp.1 == "description" then acc
                else insA acc (gp.1 ++ "." ++ mp.1) (normalize_method_spec mp.2)) acc
          | _ => acc) acc by
    exact haux []
  induction sec with
  | nil => intro acc; rfl
  | cons gp t ih =>
    intro acc
    rcases gp with ⟨gname, gval⟩
    cases gval with
    | dict ms =>
      rw [show eraseGroupDesc ((gname, PyVal.dict ms) :: t) =
          (gname, PyVal.dict (ms.filter (fun p => !(p.1 == "description")))) ::
            eraseGroupDesc t from rfl,
        List.foldl_cons, List.foldl_cons, ih]
      rw [show (match PyVal.dict (ms.filter (fun p => !(p.1 == "description"))) with
          | PyVal.dict methods =>
            methods.foldl
              (fun acc mp =>
                if mp.1 == "description" then acc
                else insA acc (gname ++ "." ++ mp.1) (normalize_method_spec mp.2)) acc
          | _ => acc) =
          (ms.filter (fun p => !(p.1 == "description"))).foldl
            (fun acc mp =>
              if mp.1 == "description" then acc
              else insA acc (gname ++ "." ++ mp.1) (normalize_method_spec mp.2)) acc
          from rfl]
      rw [innerFold_skip_desc]
    | str s =>
      rw [show eraseGroupDesc ((gname, PyVal.str s) :: t) =
          (gname, PyVal.str s) :: eraseGroupDesc t from rfl,
        List.foldl_cons, List.foldl_cons, ih]
    | int n =>
      rw [show eraseGroupDesc ((gname, PyVal.int n) :: t) =
          (gname, PyVal.int n) :: eraseGroupDesc t from rfl,
        List.foldl_cons, List.foldl_cons, ih]
    | list l =>
      rw [show eraseGroupDesc ((gname, PyVal.list l) :: t) =
          (gname, PyVal.list l) :: eraseGroupDesc t from rfl,
        List.foldl_cons, List.foldl_cons, ih]
    | none =>
      rw [show eraseGroupDesc ((gname, PyVal.none) :: t) =
          (gname, PyVal.none) :: eraseGroupDesc t from rfl,
        List.foldl_cons, List.foldl_cons, ih]

/-- Claim C1: a binary merge step (`union`, `intersect`, `difference`)
executed with fewer than two accumulated sets is deferred — appended to
`pending_merges` with `last` and `sets` unchanged and no error raised,
the execution continuing exactly as if the step had only enqueued the
operator; and for the plan `[ToolCall returning one list, Merge(intersect)]`
the deferred operator is dropped at plan end without signalling and the
final value is the raw single list. -/
theorem claim_c1_binary_merge_defers (op : String) (rest : List Step)
    (sets : List (List Rec)) (last : CtxVal) (pending : List String)
    (hb : isBinaryOp op = true) (hlen : sets.length < 2) :
    (execSteps (.merge op :: rest) sets last pending =
      execSteps rest sets last (pending ++ [op])) ∧
    ∀ L, execute [.toolCall (.lst L), .merge "intersect"] = .ok (.list L) := by
  constructor
  · cases sets with
    | nil =>
      simp only [execSteps]
      rw [if_pos hb]
    | cons s ss =>
      cases ss with
      | nil =>
        simp only [execSteps]
        rw [if_pos hb]
      | cons s1 t =>
        exfalso
        simp only [List.length_cons] at hlen
        omega
  · intro L
    rfl

theorem claim_c1_witness :
    execSteps [Step.merge "union"] [] CtxVal.none [] =
        execSteps [] [] CtxVal.none ["union"] ∧
      execute [.toolCall (.lst [rc 7]), .merge "intersect"] = .ok (.list [rc 7]) :=
  ⟨(claim_c1_binary_merge_defers "union" [] [] CtxVal.none [] rfl (by decide)).1,
   (claim_c1_binary_merge_defers "union" [] [] CtxVal.none [] rfl (by decide)).2 [rc 7]⟩

/-- Claim C2, counterexample: the claim says a call that times out removes
its own pending entry; in the code `_rpc` performs no cleanup on timeout
(`asyncio.wait_for` only cancels the future), so after send-then-timeout the
id is still live in the pending table. -/
theorem claim_c2_counterexample :
    (clientRun [CEv.send "a", CEv.timeoutEv "a"]).pending = ["a"] := rfl

/-- Claim C2 as amended: the pending entry is created at send time and is
removed only by the receiver path, exactly once, when a matching response
arrives (resolution or rejection); a second frame with the same id finds no
entry and changes nothing; a timeout does not remove the entry. -/
theorem claim_c2_pending_lifecycle (st : ClientState) (id : String)
    (body : PyVal ⊕ String) (hnd : st.pending.Nodup) (hmem : id ∈ st.pending) :
    ((rpcSend st id).pending = st.pending ++ [id]) ∧
    (id ∉ (receiverStep st (.msg (some id) body)).pending) ∧
    (∀ st2 : ClientState, id ∉ st2.pending →
      receiverStep st2 (.msg (some id) body) = st2) ∧
    ((rpcTimeout st id).pending = st.pending) := by
  refine ⟨rfl, ?_, ?_, rfl⟩
  · have hc : st.pending.contains id = true := List.elem_iff.mpr hmem
    show id ∉ (if st.pending.contains id = true then
        ({ pending := st.pending.erase id,
           slots := insA st.slots id
             (match body with
              | Sum.inl v => Slot.resolved v
              | Sum.inr e => Slot.rejected e) } : ClientState)
      else st).pending
    rw [if_pos hc]
    exact List.Nodup.not_mem_erase hnd
  · intro st2 hnm
    have hc : ¬(st2.pending.contains id = true) :=
      fun hc => hnm (List.elem_iff.mp hc)
    show (if st2.pending.contains id = true then
        ({ pending := st2.pending.erase id,
           slots := insA st2.slots id
             (match body with
              | Sum.inl v => Slot.resolved v
              | Sum.inr e => Slot.rejected e) } : ClientState)
      else st2) = st2
    rw [if_neg hc]

theorem claim_c2_witness :
    ("a" ∉ (receiverStep ⟨["a"], [("a", Slot.waiting)]⟩
        (.msg (some "a") (Sum.inl (PyVal.int 0)))).pending) ∧
      (rpcTimeout ⟨["a"], [("a", Slot.waiting)]⟩ "a").pending = ["a"] :=
  ⟨(claim_c2_pending_lifecycle ⟨["a"], [("a", Slot.waiting)]⟩ "a"
      (Sum.inl (PyVal.int 0)) (by simp) (by simp)).2.1,
   (claim_c2_pending_lifecycle ⟨["a"], [("a", Slot.waiting)]⟩ "a"
      (Sum.inl (PyVal.int 0)) (by simp) (by simp)).2.2.2⟩

/-- Claim C3, counterexample: the claim says that on link closure the reader
fails every pending entry with a connection-lost error and then reconnects;
in the code `_receiver`'s bare `except: pass` swallows the closure and the
coroutine returns: with one entry pending, the state is completely
unchanged (the slot is still waiting, the id still pending) and events after
the closure are never processed. -/
theorem claim_c3_counterexample :
    receiverLoop ⟨["a"], [("a", Slot.waiting)]⟩
        [LinkEv.closed, LinkEv.frame RMsg.malformed] =
      (⟨["a"], [("a", Slot.waiting)]⟩ : ClientState) := rfl

/-- Claim C3 as amended: when the upstream link closes the reader exits
silently — the whole client state (pending table and every result slot) is
left untouched, every id pending at closure is still pending, and no later
link event is processed (no reconnect is attempted). -/
theorem claim_c3_receiver_close (st : ClientState) (rest : List LinkEv)
    (id : String) (hmem : id ∈ st.pending) :
    receiverLoop st (.closed :: rest) = st ∧
    id ∈ (receiverLoop st (.closed :: rest)).pending :=
  ⟨rfl, hmem⟩

theorem claim_c3_witness :
    receiverLoop ⟨["b"], []⟩ [LinkEv.closed] = (⟨["b"], []⟩ : ClientState) ∧
      "b" ∈ (receiverLoop ⟨["b"], []⟩ [LinkEv.closed]).pending :=
  claim_c3_receiver_close ⟨["b"], []⟩ [] "b" (by simp)

/-- Claim C4: a `count` merge step first drains `pending_ops` while the head
operator is satisfiable, stopping (not erroring) on an unsatisfiable binary
head; then it sets `last` to the spec's counting rule (`countSpecVal`) over
the drained state, keeping the drained `sets` untouched; and the plan
`[ToolCall returning 5 items, Merge(count)]` yields the integer `5`. -/
theorem claim_c4_count_step (sets : List (List Rec)) (last : CtxVal)
    (pending : List String) (rest : List Step)
    (hb : ∀ op ∈ pending, isBinaryOp op = true) :
    (∃ p1 s1 l1, drainCountLoop pending sets last = .ok (p1, s1, l1) ∧
      execSteps (.merge "count" :: rest) sets last pending =
        execSteps rest s1 (countSpecVal l1 s1) p1 ∧
      (∀ op1 p2, p1 = op1 :: p2 → isBinaryOp op1 = true ∧ s1.length < 2)) ∧
    execute [.toolCall (.lst [rc 1, rc 2, rc 3, rc 4, rc 5]), .merge "count"] =
      .ok (.int 5) := by
  constructor
  · rcases drainCountLoop_ok pending sets last hb with ⟨p1, s1, l1, hd, hstop⟩
    exact ⟨p1, s1, l1, hd, execSteps_count_eq rest sets last pending p1 s1 l1 hd, hstop⟩
  · rfl

theorem claim_c4_witness :
    execute [.toolCall (.lst [rc 1, rc 2, rc 3, rc 4, rc 5]), .merge "count"] =
      .ok (.int 5) :=
  (claim_c4_count_step [] CtxVal.none [] [] (by intro op h; cases h)).2

/-- Claim C5: with at least two accumulated sets, `merge_intersect` returns
exactly the records of the first set whose identity key occurs in every
other set, a duplicate key within the first set collapsing to its latest
occurrence (`lastWithKey`); on the spec's example the resulting ids are
`{2, 3}` up to order. -/
theorem claim_c5_intersect (results : List (List Rec)) (r0 r1 : List Rec)
    (rs : List (List Rec)) (hres : results = r0 :: r1 :: rs) :
    (∀ x, x ∈ merge_intersect results ↔
      ∃ k, lastWithKey r0 k = some x ∧ ∀ r ∈ r1 :: rs, ∃ y ∈ r, y.key = some k) ∧
    ((merge_intersect [[rc 1, rc 2, rc 3], [rc 2, rc 3, rc 4]]).map
      (fun r => r.key)).Perm [some 2, some 3] := by
  subst hres
  exact ⟨fun x => mem_merge_intersect r0 r1 rs x, by decide⟩

theorem claim_c5_witness :
    ((merge_intersect [[rc 1, rc 2, rc 3], [rc 2, rc 3, rc 4]]).map
      (fun r => r.key)).Perm [some 2, some 3] :=
  (claim_c5_intersect [[rc 1, rc 2, rc 3], [rc 2, rc 3, rc 4]]
    [rc 1, rc 2, rc 3] [rc 2, rc 3, rc 4] [] rfl).2

/-- Claim C6: `merge_difference` is binary — its result is exactly the
records of the first set (latest occurrence per key) whose key is absent
from the second set — and a `difference` merge step applied to three or more
accumulated sets computes the merge of the first two only, the remaining
sets never entering the computation (the state collapses to the single
merged set); the spec's example `difference([id 1, id 2], [id 2]) = [id 1]`
holds. -/
theorem claim_c6_difference (a b : List Rec) (s0 s1 : List Rec)
    (rest : List (List Rec)) (steps : List Step) (last : CtxVal)
    (pending : List String) (_hmore : 0 < rest.length) :
    (∀ x, x ∈ merge_difference a b ↔
      ∃ k, lastWithKey a k = some x ∧ ∀ y ∈ b, y.key ≠ some k) ∧
    (execSteps (.merge "difference" :: steps) (s0 :: s1 :: rest) last pending =
      execSteps steps [merge_difference s0 s1]
        (.list (merge_difference s0 s1)) pending) ∧
    merge_difference [rc 1, rc 2] [rc 2] = [rc 1] :=
  ⟨fun x => mem_merge_difference a b x, rfl, by decide⟩

theorem claim_c6_witness :
    (execSteps [Step.merge "difference"] [[rc 1, rc 2], [rc 2], [rc 9]]
        CtxVal.none [] =
      execSteps [] [merge_difference [rc 1, rc 2] [rc 2]]
        (.list (merge_difference [rc 1, rc 2] [rc 2])) []) ∧
      merge_difference [rc 1, rc 2] [rc 2] = [rc 1] :=
  ⟨(claim_c6_difference [] [] [rc 1, rc 2] [rc 2] [[rc 9]] [] CtxVal.none []
      (by decide)).2.1,
   (claim_c6_difference [] [] [rc 1, rc 2] [rc 2] [[rc 9]] [] CtxVal.none []
      (by decide)).2.2⟩

/-- Claim C8: a record without an `id` key can never appear in the result of
a union, intersect (with the two-or-more sets an executed merge always has),
or difference merge — every merged record carries an identity key. -/
theorem claim_c8_no_id_excluded (results : List (List Rec)) (a b : List Rec)
    (x : Rec) :
    (2 ≤ results.length → x ∈ merge_intersect results → ∃ k, x.key = some k) ∧
    (x ∈ merge_union results → ∃ k, x.key = some k) ∧
    (x ∈ merge_difference a b → ∃ k, x.key = some k) := by
  refine ⟨?_, ?_, ?_⟩
  · intro hlen hx
    cases results with
    | nil => cases hx
    | cons r0 rs0 =>
      cases rs0 with
      | nil => simp at hlen
      | cons r1 rs =>
        simp only [merge_intersect] at hx
        rcases List.mem_map.mp hx with ⟨p, hpf, hpx⟩
        have hpm := List.mem_of_mem_filter hpf
        exact ⟨p.1, by rw [← hpx]; exact keyed_indexById r0 p hpm⟩
  · intro hx
    unfold merge_union at hx
    exact key_of_mem_values _ (keyed_unionFold results [] (by intro p hp; cases hp))
      x hx
  · intro hx
    simp only [merge_difference] at hx
    rcases List.mem_map.mp hx with ⟨p, hpf, hpx⟩
    have hpm := List.mem_of_mem_filter hpf
    exact ⟨p.1, by rw [← hpx]; exact keyed_indexById a p hpm⟩

theorem claim_c8_witness :
    (2 ≤ ([[rc 2, rNoId], [rc 2, rNoId]] : List (List Rec)).length) ∧
      (∃ k, (rc 2).key = some k) :=
  ⟨by decide,
   (claim_c8_no_id_excluded [[rc 2, rNoId], [rc 2, rNoId]] [] [] (rc 2)).1
     (by decide) (by decide)⟩

/-- Claim C7, counterexample: the claim's recognized-field set omits
`id_param` (and `method`), yet normalization keeps `id_param`: a descriptor
whose only field is `id_param` still carries it after normalization, so
normalization does not drop every field outside the spec's nine-field set. -/
theorem claim_c7_counterexample :
    hasA (normalize_method_spec (.dict [("id_param", PyVal.int 1)]))
        "id_param" = true ∧
      specClaimedFields.contains "id_param" = false :=
  ⟨rfl, rfl⟩

/-- Claim C7 as amended: normalization of a dict descriptor keeps only the
fields `{type, func, params, schema, serializer, method, endpoint, timeout,
path, description, id_param}` (the source's `allowed` set — the spec's
`target` is `func`, and `method` and `id_param` are also recognized),
silently drops every field outside it, and keeps each recognized field with
its raw value; a group-level `"description"` key is skipped, so erasing all
such keys from the spec leaves the flat registry unchanged. -/
theorem claim_c7_normalization (entries : List (String × PyVal)) (k : String)
    (v : PyVal) (hnd : NodupKeys entries) :
    (∀ p ∈ normalize_method_spec (.dict entries),
      allowedFields.contains p.1 = true) ∧
    (allowedFields.contains k = false →
      lookA (normalize_method_spec (.dict entries)) k = none) ∧
    (allowedFields.contains k = true → lookA entries k = some v →
      lookA (normalize_method_spec (.dict entries)) k = some v) ∧
    (∀ sec : List (String × PyVal),
      buildRegistry (eraseGroupDesc sec) = buildRegistry sec) :=
  ⟨fun p hp => normalize_keys_allowed (.dict entries) p hp,
   fun hc => normalize_drops entries k hc,
   fun hc hv => normalize_survives entries k v hnd hc hv,
   fun sec => buildRegistry_skips_group_desc sec⟩

theorem claim_c7_witness :
    lookA (normalize_method_spec
        (.dict [("type", PyVal.str "script"), ("bogus", PyVal.int 3)]))
      "type" = some (PyVal.str "script") :=
  (claim_c7_normalization [("type", PyVal.str "script"), ("bogus", PyVal.int 3)]
    "type" (PyVal.str "script") (by simp [NodupKeys])).2.2.1 rfl rfl

/-- Claim C9: a descriptor without a `type` field is treated as
`python_function` everywhere — `execute_tool` dispatches it to the local
python-function path, and `list_tools` reports its type as
`"python_function"`. -/
theorem claim_c9_default_type (spec : List (String × PyVal))
    (tools : List (String × List (String × PyVal))) (fullname : String)
    (h : lookA spec "type" = none) :
    execute_tool_branch spec = .python_function ∧
    ((fullname, spec) ∈ tools →
      (fullname, listToolEntry spec) ∈ list_tools tools ∧
      lookA (listToolEntry spec) "type" = some (.str "python_function")) := by
  constructor
  · unfold execute_tool_branch
    rw [h]
    rfl
  · intro hmem
    refine ⟨List.mem_map.mpr ⟨(fullname, spec), hmem, rfl⟩, ?_⟩
    unfold listToolEntry
    rw [h]
    rfl

theorem claim_c9_witness :
    execute_tool_branch [("func", PyVal.str "crud.get_students")] =
        Strategy.python_function ∧
      lookA (listToolEntry [("func", PyVal.str "crud.get_students")]) "type" =
        some (.str "python_function") :=
  ⟨(claim_c9_default_type [("func", PyVal.str "crud.get_students")]
      [("students.get", [("func", PyVal.str "crud.get_students")])]
      "students.get" rfl).1,
   ((claim_c9_default_type [("func", PyVal.str "crud.get_students")]
      [("students.get", [("func", PyVal.str "crud.get_students")])]
      "students.get" rfl).2 (List.mem_singleton.mpr rfl)).2⟩

/-- Claim C10: a subprocess dispatch that exits with status zero and empty
trimmed stdout yields `None`, not the empty string; only non-empty trimmed
stdout is handed to the JSON parser, falling back to the raw trimmed text
when parsing fails. -/
theorem claim_c10_script_empty_stdout (parse : String → Option PyVal)
    (proc : ProcResult) (h0 : proc.returncode = 0) :
    (pyStrip proc.stdout = "" → execute_script parse proc = .ok .none) ∧
    (pyStrip proc.stdout ≠ "" →
      execute_script parse proc =
        .ok ((parse (pyStrip proc.stdout)).getD (.str (pyStrip proc.stdout)))) ∧
    (Except.ok PyVal.none : Except String PyVal) ≠ .ok (.str "") := by
  refine ⟨?_, ?_, by intro hc; injection hc with hv; cases hv⟩
  · intro he
    unfold execute_script
    rw [if_neg (fun hne => hne h0)]
    simp only [he]
    rfl
  · intro hne
    unfold execute_script
    rw [if_neg (fun hn => hn h0)]
    have hb : (pyStrip proc.stdout == "") = false := beq_eq_false_iff_ne.mpr hne
    simp only [hb, Bool.false_eq_true, if_false]
    cases hp : parse (pyStrip proc.stdout) with
    | none => rfl
    | some j => rfl

theorem claim_c10_witness :
    execute_script noParse ⟨0, "", "boom"⟩ = .ok PyVal.none :=
  (claim_c10_script_empty_stdout noParse ⟨0, "", "boom"⟩ rfl).1 (by decide)

end SchoolMCP
